import Mathlib

/-
  Verification development for the lokalise-actions-common repository.

  Strings are embedded as lists of characters.  Functions present in the
  sources (the line splitters of packages parsepaths and parsers, and the
  tail-capturing ring buffer of package tailring) are translated directly
  from their Go definitions.  The repo-relative path normalizer, validator
  and list parser are exercised by tests in the sources but their own code
  is absent; those are modelled from the specification and checked against
  the expectations recorded in their tests.
-/

namespace LA

/-! ## Basic character and list utilities -/

/-- Translated from Go unicode.IsSpace: the Unicode white-space characters
recognised by strings.TrimSpace. -/
def isGoSpace (c : Char) : Bool :=
  c = ' ' || c = '\t' || c = '\n' || c = Char.ofNat 11 || c = Char.ofNat 12 ||
  c = '\r' || c = Char.ofNat 0x85 || c = Char.ofNat 0xA0 || c = Char.ofNat 0x1680 ||
  (Char.ofNat 0x2000 ≤ c && c ≤ Char.ofNat 0x200A) ||
  c = Char.ofNat 0x2028 || c = Char.ofNat 0x2029 || c = Char.ofNat 0x202F ||
  c = Char.ofNat 0x205F || c = Char.ofNat 0x3000

/-- Translated from Go strings.TrimSpace: drop white space from both ends. -/
def trimSpace (l : List Char) : List Char :=
  ((l.dropWhile isGoSpace).reverse.dropWhile isGoSpace).reverse

/-- Translated from Go strings.ReplaceAll (s, old "\r\n", new "\n"): leftmost,
non-overlapping replacement of the two-character sequence. -/
def replaceCRLF : List Char → List Char
  | [] => []
  | [c] => [c]
  | a :: b :: t =>
    if a = '\r' ∧ b = '\n' then '\n' :: replaceCRLF t
    else a :: replaceCRLF (b :: t)

/-- Translated from Go strings.ReplaceAll (s, old "\r", new "\n"): a
single-character replacement is a pointwise map. -/
def replaceCR (l : List Char) : List Char :=
  l.map fun c => if c = '\r' then '\n' else c

/-- Translated from Go strings.Split on a one-character separator. -/
def splitOnChar (c : Char) : List Char → List (List Char)
  | [] => [[]]
  | a :: as =>
    if a = c then [] :: splitOnChar c as
    else
      match splitOnChar c as with
      | [] => [[a]]
      | s :: ss => (a :: s) :: ss

/-- Joins segments with a one-character separator, inverse of splitOnChar. -/
def joinWith (c : Char) : List (List Char) → List Char
  | [] => []
  | [s] => s
  | s :: ss => s ++ c :: joinWith c ss

/-- Bool test that the first list is an initial segment of the second. -/
def leadsWith : List Char → List Char → Bool
  | [], _ => true
  | _ :: _, [] => false
  | a :: as, b :: bs => a = b && leadsWith as bs

/-- Bool test that needle occurs contiguously somewhere inside hay,
modelling Go strings.Contains. -/
def hasSubstr (needle : List Char) : List Char → Bool
  | [] => leadsWith needle []
  | c :: t => leadsWith needle (c :: t) || hasSubstr needle t

/-! ## Path normalizer (spec §4.1) -/

/-- Modelled from the spec (§4.1): backslashes are converted to forward
slashes before any segment processing. -/
def slashify (l : List Char) : List Char :=
  l.map fun c => if c = '\\' then '/' else c

/-- The parent-directory segment. -/
def dd : List Char := ['.', '.']

/-- Whether a path begins with the separator. -/
def isRooted : List Char → Bool
  | c :: _ => c = '/'
  | [] => false

/-- Modelled from the spec (§4.1): one step of lexical segment resolution,
acting on the reversed stack of already-resolved segments.  An empty or dot
segment is dropped; a dot-dot segment removes the preceding segment if one
exists and is not itself dot-dot, is dropped entirely on a rooted path with
no preceding segment, and is retained otherwise; any other segment is kept. -/
def resolveStep (rooted : Bool) (acc : List (List Char)) (s : List Char) : List (List Char) :=
  if s = [] ∨ s = ['.'] then acc
  else if s = dd then
    match acc with
    | [] => if rooted then [] else [dd]
    | t :: ts => if rooted = false ∧ t = dd then dd :: t :: ts else ts
  else s :: acc

/-- Resolves a list of segments left to right onto a reversed stack. -/
def resolveRev (rooted : Bool) (segs acc : List (List Char)) : List (List Char) :=
  segs.foldl (resolveStep rooted) acc

/-- Renders a resolved segment stack back into a path: a rooted path gets
a leading separator, an empty relative result is the single dot. -/
def renderPath (rooted : Bool) (st : List (List Char)) : List Char :=
  if rooted then '/' :: joinWith '/' st
  else if st = [] then ['.']
  else joinWith '/' st

/-- Modelled from the spec (§4.1): the Path Normalizer.  Converts
backslashes to forward slashes, collapses redundant separators, lexically
resolves dot and dot-dot segments, strips a trailing separator, and renders
an empty relative result as the single dot (so the one-character input dot
passes through unchanged).  Matches every expectation recorded in
TestEnsureRepoRelativePath (src/unnamed/part_004). -/
def normalizePath (p : List Char) : List Char :=
  renderPath (isRooted (slashify p))
    ((resolveRev (isRooted (slashify p)) (splitOnChar '/' (slashify p)) []).reverse)

/-! ## Path validator (spec §4.2) -/

/-- The error taxonomy of the spec (§7). -/
inductive PathErrorKind where
  | RequiredMissing
  | NotRelative
  | DrivePrefixed
  | Escapes
  | GlobCharacter
deriving DecidableEq

/-- A validation verdict (§3): the normalized path, or the reason it was
rejected. -/
inductive Verdict where
  | Valid (path : List Char)
  | Invalid (kind : PathErrorKind)
deriving DecidableEq

/-- Whether a character is an ASCII letter. -/
def isAsciiLetter (c : Char) : Bool :=
  ('A' ≤ c && c ≤ 'Z') || ('a' ≤ c && c ≤ 'z')

/-- Whether the path begins with the separator character. -/
def startsWithSep : List Char → Bool
  | c :: _ => c = '/'
  | [] => false

/-- Whether the path begins with a doubled separator (UNC style). -/
def startsWithDoubleSep : List Char → Bool
  | c :: d :: _ => c = '/' && d = '/'
  | _ => false

/-- Whether the path starts with a single ASCII letter followed by a colon. -/
def isDriveStart : List Char → Bool
  | c :: d :: _ => isAsciiLetter c && d = ':'
  | _ => false

/-- Whether the path begins with a dot-dot segment, either as the whole
path or as its first component. -/
def startsWithParentSeg : List Char → Bool
  | [c, d] => c = '.' && d = '.'
  | c :: d :: e :: _ => c = '.' && d = '.' && e = '/'
  | _ => false

/-- Whether the path contains a glob metacharacter anywhere. -/
def containsGlobChar (l : List Char) : Bool :=
  l.any fun c => c = '*' || c = '?' || c = '[' || c = ']'

/-- Modelled from the spec (§4.2): the Path Validator.  Checks in order,
first match winning: not-relative (empty, leading separator, or leading
doubled separator), drive-prefixed, escaping dot-dot, glob metacharacter;
otherwise the path is valid. -/
def validateRepoRelativePath (l : List Char) : Verdict :=
  if l.isEmpty || startsWithSep l || startsWithDoubleSep l then
    .Invalid .NotRelative
  else if isDriveStart l then .Invalid .DrivePrefixed
  else if startsWithParentSeg l then .Invalid .Escapes
  else if containsGlobChar l then .Invalid .GlobCharacter
  else .Valid l

/-- Modelled from the spec (§6): canonical error message text per kind,
each containing the substring mandated by the error message contract. -/
def kindMessage : PathErrorKind → List Char
  | .RequiredMissing => "input is required but was empty".data
  | .NotRelative => "path must be relative to repo root".data
  | .DrivePrefixed => "drive-prefixed paths are not allowed".data
  | .Escapes => "path escapes repo root".data
  | .GlobCharacter => "glob characters are not allowed".data

/-- Modelled from the spec (§4.3, §6): the message for a failed list parse;
the RequiredMissing message references the key naming the input. -/
def keyedMessage (key : List Char) (k : PathErrorKind) : List Char :=
  match k with
  | .RequiredMissing => key ++ (':' :: ' ' :: kindMessage .RequiredMissing)
  | k => kindMessage k

/-- Modelled from the spec: EnsureRepoRelativePath, whose implementation is
absent from the sources (only its test TestEnsureRepoRelativePath in
src/unnamed/part_004 remains).  Per §4.1 and §4.2 it normalizes its input
and then classifies the normalized path. -/
def ensureRepoRelativePath (p : List Char) : Except PathErrorKind (List Char) :=
  match validateRepoRelativePath (normalizePath p) with
  | .Valid q => .ok q
  | .Invalid k => .error k

/-- Whether a line passes normalization plus validation. -/
def ensureOk (p : List Char) : Bool :=
  match ensureRepoRelativePath p with
  | .ok _ => true
  | .error _ => false

/-! ## Line splitters (src/parsers/parsers.go and src/unnamed/part_000) -/

/-- The default maximum token size of bufio.Scanner
(bufio.MaxScanTokenSize, 64 KiB). -/
def maxScanTokenSize : Nat := 65536

/-- Translated from the bufio.Scanner loop of src/parsers/parsers.go
ParseStringArrayEnv: tokens are produced in input order, and the first
line that cannot fit in the scanner buffer stops the scan (Scan returns
false with ErrTooLong, which the loop ignores), silently dropping that
line and all later input.  A line of up to 65535 characters together with
its newline still fits the 65536-byte buffer, while a longer line forces
a grow past the cap even at end of input, so the cut is at lines of
length at least maxScanTokenSize.  Lengths are counted in characters of
the embedding where Go counts bytes. -/
def scanTokens : List (List Char) → List (List Char)
  | [] => []
  | l :: ls => if l.length < maxScanTokenSize then l :: scanTokens ls else []

/-- Translated from src/parsers/parsers.go ParseStringArrayEnv, the pure
core after the os.Getenv read: on an empty value return the empty list;
otherwise normalize Windows line endings and stray carriage returns to
newlines, scan the lines in order subject to the scanner's maximum token
size, trim each scanned line, and keep the non-empty ones. -/
def parseStringArrayEnv (val : List Char) : List (List Char) :=
  if val = [] then []
  else
    let normalized := replaceCR (replaceCRLF val)
    ((scanTokens (splitOnChar '\n' normalized)).map trimSpace).filter (· ≠ [])

/-- Translated from src/unnamed/part_000 (package parsepaths) ParsePaths:
on an empty value return the empty list; otherwise normalize Windows line
endings to newlines, split into lines, trim each line, keep the non-empty
ones, and return the empty list when nothing remains. -/
def parsePaths (envVar : List Char) : List (List Char) :=
  if envVar = [] then []
  else
    let normalized := replaceCRLF envVar
    let paths := ((splitOnChar '\n' normalized).map trimSpace).filter (· ≠ [])
    if paths = [] then [] else paths

/-- Modelled from the spec (§4.3): the fold with early exit over the split
lines.  An invalid line aborts immediately with its kind; a valid line is
appended to the accumulator unless already present. -/
def parseRepoRelativeLines : List (List Char) → List (List Char) →
    Except PathErrorKind (List (List Char))
  | [], acc => .ok acc
  | line :: rest, acc =>
    match ensureRepoRelativePath line with
    | .error k => .error k
    | .ok path =>
      if path ∈ acc then parseRepoRelativeLines rest acc
      else parseRepoRelativeLines rest (acc ++ [path])

/-- Modelled from the spec: ParseRepoRelativePathsEnv, whose implementation
is absent from the sources (only its test TestParseRepoRelativePathsEnv in
src/unnamed/part_004 remains).  Per §4.3 the raw value is the injected
environment lookup result: an empty raw value fails with RequiredMissing,
otherwise the lines produced by the sibling line splitter are folded
through normalization and validation with fail-fast and ordered
deduplication. -/
def parseRepoRelativePathsEnv (raw : List Char) :
    Except PathErrorKind (List (List Char)) :=
  if raw = [] then .error .RequiredMissing
  else parseRepoRelativeLines (parseStringArrayEnv raw) []

/-- Modelled from the spec (§4.3, §6): the list parse together with the
error message contract, referencing the key on a missing required input. -/
def parseRepoRelativePathsEnvMsg (key raw : List Char) :
    Except (PathErrorKind × List Char) (List (List Char)) :=
  match parseRepoRelativePathsEnv raw with
  | .ok l => .ok l
  | .error k => .error (k, keyedMessage key k)

/-- Order-preserving deduplication keeping the first occurrence of each
element, written from the claim wording for comparison with the parser. -/
def dedupKeepFirst (l : List (List Char)) : List (List Char) :=
  l.foldl (fun acc x => if x ∈ acc then acc else acc ++ [x]) []

/-! ## Tail ring buffer (src/tailring/tailring.go) -/

/-- Translated from src/tailring/tailring.go Ring: the byte buffer and the
limit.  The Go limit is a signed int, embedded as Int; the mutex only
serialises access and carries no data. -/
structure TailRing where
  buf : List UInt8
  limit : Int
deriving DecidableEq

/-- Translated from src/tailring/tailring.go New. -/
def TailRing.new (limit : Int) : TailRing := ⟨[], limit⟩

/-- Translated from src/tailring/tailring.go Ring.Write: appends p keeping
only the last limit bytes, and returns the pair (len p, nil error).  A
non-positive limit stores nothing; a chunk at least as large as the limit
replaces the buffer with the chunk tail; otherwise just enough leading
bytes are dropped for the append to fit. -/
def TailRing.write (r : TailRing) (p : List UInt8) :
    TailRing × (Nat × Option String) :=
  if r.limit ≤ 0 then (r, (p.length, none))
  else if r.limit ≤ (p.length : Int) then
    (⟨p.drop (p.length - r.limit.toNat), r.limit⟩, (p.length, none))
  else
    let need : Int := (r.buf.length : Int) + (p.length : Int) - r.limit
    if 0 < need then (⟨(r.buf.drop need.toNat) ++ p, r.limit⟩, (p.length, none))
    else (⟨r.buf ++ p, r.limit⟩, (p.length, none))

/-- Translated from src/tailring/tailring.go Ring.Len. -/
def TailRing.lenBytes (r : TailRing) : Nat := r.buf.length

/-- The state reached from New (limit) after a sequence of writes. -/
def TailRing.writeAll (limit : Int) (ws : List (List UInt8)) : TailRing :=
  ws.foldl (fun r p => (r.write p).1) (TailRing.new limit)

/-- The last n bytes of a byte list. -/
def tailBytes (n : Nat) (l : List UInt8) : List UInt8 :=
  l.drop (l.length - n)

/-! ## Byte array heap, for the aliasing behavior of Ring.Bytes -/

/-- A heap of byte arrays indexed by allocation order, modelling the Go
slice backing arrays that Ring.Bytes allocates and copies into. -/
structure Heap where
  arrays : List (List UInt8)
deriving DecidableEq

/-- Reads the contents of array i. -/
def Heap.read (h : Heap) (i : Nat) : List UInt8 :=
  h.arrays.getD i []

/-- Overwrites the contents of array i, modelling a caller mutating a
slice it holds. -/
def Heap.writeAt (h : Heap) (i : Nat) (v : List UInt8) : Heap :=
  ⟨h.arrays.set i v⟩

/-- Allocates a fresh array with the given contents and returns its index,
modelling Go make plus copy. -/
def Heap.alloc (h : Heap) (v : List UInt8) : Heap × Nat :=
  (⟨h.arrays ++ [v]⟩, h.arrays.length)

/-- Translated from src/tailring/tailring.go Ring.Bytes: allocate a fresh
array, copy the ring buffer contents into it, and hand the fresh array to
the caller; the ring keeps its own array. -/
def ringBytes (h : Heap) (ringId : Nat) : Heap × Nat :=
  Heap.alloc h (h.read ringId)

/-! ## Claim-side predicates, written from the claim wording -/

/-- Check 1 of the claim: the path is empty, begins with a separator, or
begins with a double separator. -/
def claimNotRelative (l : List Char) : Prop :=
  l = [] ∨ (∃ t, l = '/' :: t) ∨ (∃ t, l = '/' :: '/' :: t)

/-- Check 2 of the claim: the path begins with a single ASCII letter
followed by a colon. -/
def claimDrive (l : List Char) : Prop :=
  ∃ c t, l = c :: ':' :: t ∧ isAsciiLetter c = true

/-- Check 3 of the claim: the path begins with a dot-dot segment. -/
def claimEscapes (l : List Char) : Prop :=
  l = dd ∨ ∃ t, l = '.' :: '.' :: '/' :: t

/-- Check 4 of the claim: the path contains a glob metacharacter. -/
def claimGlob (l : List Char) : Prop :=
  ∃ c ∈ l, c = '*' ∨ c = '?' ∨ c = '[' ∨ c = ']'

/-! ## Invariants of the normalizer stack -/

/-- A segment that survives resolution: non-empty, not the dot segment,
and free of separators and backslashes. -/
def plainSeg (s : List Char) : Prop :=
  s ≠ [] ∧ s ≠ ['.'] ∧ '/' ∉ s ∧ '\\' ∉ s

/-- Shape of the reversed resolution stack: plain non-dot-dot segments on
top of a run of dot-dot segments, and no dot-dot at all on a rooted path. -/
def StackInv (b : Bool) (acc : List (List Char)) : Prop :=
  ∃ front k, acc = front ++ List.replicate k dd ∧
    (∀ s ∈ front, plainSeg s ∧ s ≠ dd) ∧ (b = true → k = 0)

/-! ## Validator bridging lemmas -/

theorem startsWithSep_iff (l : List Char) :
    startsWithSep l = true ↔ ∃ t, l = '/' :: t := by
  cases l with
  | nil => simp [startsWithSep]
  | cons a t => simp [startsWithSep]

theorem startsWithDoubleSep_iff (l : List Char) :
    startsWithDoubleSep l = true ↔ ∃ t, l = '/' :: '/' :: t := by
  match l with
  | [] => simp [startsWithDoubleSep]
  | [a] => simp [startsWithDoubleSep]
  | a :: b :: t => simp [startsWithDoubleSep, and_comm]

theorem isDriveStart_iff (l : List Char) :
    isDriveStart l = true ↔ claimDrive l := by
  unfold claimDrive
  match l with
  | [] => simp [isDriveStart]
  | [a] => simp [isDriveStart]
  | a :: b :: t =>
    simp only [isDriveStart, Bool.and_eq_true, decide_eq_true_eq]
    constructor
    · rintro ⟨ha, rfl⟩; exact ⟨a, t, rfl, ha⟩
    · rintro ⟨c, t', heq, hc⟩
      rw [List.cons.injEq, List.cons.injEq] at heq
      obtain ⟨rfl, rfl, -⟩ := heq
      exact ⟨hc, rfl⟩

theorem startsWithParentSeg_iff (l : List Char) :
    startsWithParentSeg l = true ↔ claimEscapes l := by
  unfold claimEscapes dd
  match l with
  | [] => simp [startsWithParentSeg]
  | [a] => simp [startsWithParentSeg]
  | [a, b] => simp [startsWithParentSeg, and_comm]
  | a :: b :: c :: t =>
    simp only [startsWithParentSeg, Bool.and_eq_true, decide_eq_true_eq]
    constructor
    · rintro ⟨⟨rfl, rfl⟩, rfl⟩; exact Or.inr ⟨t, rfl⟩
    · rintro (heq | ⟨t', heq⟩)
      · simp at heq
      · rw [List.cons.injEq, List.cons.injEq, List.cons.injEq] at heq
        obtain ⟨rfl, rfl, rfl, -⟩ := heq
        exact ⟨⟨rfl, rfl⟩, rfl⟩

theorem containsGlobChar_iff (l : List Char) :
    containsGlobChar l = true ↔ claimGlob l := by
  unfold containsGlobChar claimGlob
  rw [List.any_eq_true]
  constructor
  · rintro ⟨c, hc, hp⟩
    refine ⟨c, hc, ?_⟩
    rcases Bool.or_eq_true _ _ |>.mp hp with h | h
    · rcases Bool.or_eq_true _ _ |>.mp h with h | h
      · rcases Bool.or_eq_true _ _ |>.mp h with h | h
        · exact Or.inl (by simpa using h)
        · exact Or.inr (Or.inl (by simpa using h))
      · exact Or.inr (Or.inr (Or.inl (by simpa using h)))
    · exact Or.inr (Or.inr (Or.inr (by simpa using h)))
  · rintro ⟨c, hc, hp⟩
    refine ⟨c, hc, ?_⟩
    rcases hp with rfl | rfl | rfl | rfl <;> simp

theorem claimNotRelative_iff (l : List Char) :
    (l.isEmpty || startsWithSep l || startsWithDoubleSep l) = true ↔
      claimNotRelative l := by
  unfold claimNotRelative
  simp only [Bool.or_eq_true, List.isEmpty_iff, startsWithSep_iff, startsWithDoubleSep_iff]
  tauto

/-- C1: the validator applies the not-relative, drive-prefixed, escaping
and glob checks in this order with first match winning, and reports the
kind of the earliest applicable check; a path passing all four is valid
and returned unchanged. -/
theorem c1_validator_precedence (p : List Char) :
    (claimNotRelative p → validateRepoRelativePath p = .Invalid .NotRelative) ∧
    (¬ claimNotRelative p → claimDrive p →
      validateRepoRelativePath p = .Invalid .DrivePrefixed) ∧
    (¬ claimNotRelative p → ¬ claimDrive p → claimEscapes p →
      validateRepoRelativePath p = .Invalid .Escapes) ∧
    (¬ claimNotRelative p → ¬ claimDrive p → ¬ claimEscapes p → claimGlob p →
      validateRepoRelativePath p = .Invalid .GlobCharacter) ∧
    (¬ claimNotRelative p → ¬ claimDrive p → ¬ claimEscapes p → ¬ claimGlob p →
      validateRepoRelativePath p = .Valid p) := by
  unfold validateRepoRelativePath
  refine ⟨?_, ?_, ?_, ?_, ?_⟩
  · intro h1
    rw [if_pos ((claimNotRelative_iff p).mpr h1)]
  · intro h1 h2
    rw [if_neg (by rw [claimNotRelative_iff]; exact h1),
      if_pos ((isDriveStart_iff p).mpr h2)]
  · intro h1 h2 h3
    rw [if_neg (by rw [claimNotRelative_iff]; exact h1),
      if_neg (by rw [isDriveStart_iff]; exact h2),
      if_pos ((startsWithParentSeg_iff p).mpr h3)]
  · intro h1 h2 h3 h4
    rw [if_neg (by rw [claimNotRelative_iff]; exact h1),
      if_neg (by rw [isDriveStart_iff]; exact h2),
      if_neg (by rw [startsWithParentSeg_iff]; exact h3),
      if_pos ((containsGlobChar_iff p).mpr h4)]
  · intro h1 h2 h3 h4
    rw [if_neg (by rw [claimNotRelative_iff]; exact h1),
      if_neg (by rw [isDriveStart_iff]; exact h2),
      if_neg (by rw [startsWithParentSeg_iff]; exact h3),
      if_neg (by rw [containsGlobChar_iff]; exact h4)]

/-- Witness for C1: on a path triggering both the not-relative check and
the glob check, the validator reports the earlier not-relative kind. -/
theorem c1_witness :
    validateRepoRelativePath ("//x*".data) = .Invalid .NotRelative :=
  (c1_validator_precedence ("//x*".data)).1 (Or.inr (Or.inr ⟨"x*".data, rfl⟩))

/-- C7: the single-character dot input passes through normalization
unchanged and is accepted by the validator rather than rejected. -/
theorem c7_dot_accepted :
    normalizePath ".".data = ".".data ∧
    validateRepoRelativePath (normalizePath ".".data) = .Valid ".".data ∧
    ensureRepoRelativePath ".".data = .ok ".".data :=
  ⟨by decide, by decide, rfl⟩

/-! ## Escape classification -/

theorem validate_parent_slash (t : List Char) :
    validateRepoRelativePath ('.' :: '.' :: '/' :: t) = .Invalid .Escapes := rfl

theorem validate_parent_only :
    validateRepoRelativePath dd = .Invalid .Escapes := rfl

/-- C4: whenever lexical normalization yields a path beginning with a
dot-dot segment, the combined normalize-then-validate classification is
the Escapes kind, whose error text contains the mandated substring. -/
theorem c4_escapes (p : List Char)
    (h : startsWithParentSeg (normalizePath p) = true) :
    ensureRepoRelativePath p = .error .Escapes ∧
    hasSubstr "escapes repo root".data (kindMessage .Escapes) = true := by
  refine ⟨?_, by decide⟩
  have hv : validateRepoRelativePath (normalizePath p) = .Invalid .Escapes := by
    rcases (startsWithParentSeg_iff _).mp h with heq | ⟨t, heq⟩
    · rw [heq]; exact validate_parent_only
    · rw [heq]; exact validate_parent_slash t
  unfold ensureRepoRelativePath
  rw [hv]

/-- Witness for C4: both a directly escaping input and one that escapes
only after normalization are rejected as Escapes. -/
theorem c4_witness :
    (startsWithParentSeg (normalizePath "../outside".data) = true ∧
      ensureRepoRelativePath "../outside".data = .error .Escapes) ∧
    (startsWithParentSeg (normalizePath "a/../../b".data) = true ∧
      ensureRepoRelativePath "a/../../b".data = .error .Escapes) :=
  ⟨⟨by decide, (c4_escapes _ (by decide)).1⟩,
   ⟨by decide, (c4_escapes _ (by decide)).1⟩⟩

/-! ## Parser lemmas -/

theorem validate_valid_inj {m q : List Char}
    (h : validateRepoRelativePath m = .Valid q) : q = m := by
  unfold validateRepoRelativePath at h
  split at h
  · cases h
  · split at h
    · cases h
    · split at h
      · cases h
      · split at h
        · cases h
        · injection h with h; exact h.symm

theorem ensureOk_ok {l : List Char} (h : ensureOk l = true) :
    ensureRepoRelativePath l = .ok (normalizePath l) := by
  unfold ensureOk at h
  unfold ensureRepoRelativePath at h ⊢
  cases hv : validateRepoRelativePath (normalizePath l) with
  | Valid q => rw [validate_valid_inj hv]
  | Invalid k => rw [hv] at h; cases h

theorem parse_lines_fail (bad : List Char) (k : PathErrorKind)
    (hbad : ensureRepoRelativePath bad = .error k) :
    ∀ (pre rest acc : List (List Char)), (∀ l ∈ pre, ensureOk l = true) →
      parseRepoRelativeLines (pre ++ bad :: rest) acc = .error k := by
  intro pre
  induction pre with
  | nil =>
    intro rest acc _
    simp only [List.nil_append, parseRepoRelativeLines, hbad]
  | cons l pre ih =>
    intro rest acc hall
    have hl := ensureOk_ok (hall l (by simp))
    have htail : ∀ x ∈ pre, ensureOk x = true := fun x hx => hall x (by simp [hx])
    simp only [List.cons_append, parseRepoRelativeLines, hl]
    split
    · exact ih rest acc htail
    · exact ih rest _ htail

/-- C2: when the split lines consist of a valid run followed by a first
invalid line, the list parse fails with exactly that line's kind,
independently of everything after it, and returns no list. -/
theorem c2_fail_fast (raw : List Char) (pre : List (List Char))
    (bad : List Char) (rest : List (List Char)) (k : PathErrorKind)
    (hsplit : parseStringArrayEnv raw = pre ++ bad :: rest)
    (hpre : ∀ l ∈ pre, ensureOk l = true)
    (hbad : ensureRepoRelativePath bad = .error k) :
    parseRepoRelativePathsEnv raw = .error k := by
  have hraw : raw ≠ [] := by
    intro h
    rw [h] at hsplit
    simp [parseStringArrayEnv] at hsplit
  unfold parseRepoRelativePathsEnv
  rw [if_neg hraw, hsplit]
  exact parse_lines_fail bad k hbad pre rest [] hpre

/-- Witness for C2: a valid line, an escaping line, then a valid line
parse to the Escapes failure of the second line. -/
theorem c2_witness :
    parseRepoRelativePathsEnv "a\n../up\nb".data = .error .Escapes :=
  c2_fail_fast "a\n../up\nb".data ["a".data] "../up".data ["b".data]
    .Escapes (by decide) (by decide) rfl

theorem parse_lines_ok :
    ∀ (lines acc : List (List Char)), (∀ l ∈ lines, ensureOk l = true) →
      parseRepoRelativeLines lines acc =
        .ok (lines.foldl
          (fun a x => if normalizePath x ∈ a then a else a ++ [normalizePath x]) acc) := by
  intro lines
  induction lines with
  | nil => intro acc _; rfl
  | cons l lines ih =>
    intro acc hall
    have hl := ensureOk_ok (hall l (by simp))
    have htail : ∀ x ∈ lines, ensureOk x = true := fun x hx => hall x (by simp [hx])
    simp only [parseRepoRelativeLines, hl, List.foldl_cons]
    split
    · exact ih acc htail
    · exact ih _ htail

/-- C3: when every split line validates, the list parse returns the
normalized lines deduplicated by string equality, keeping only the first
occurrence of each path in encounter order. -/
theorem c3_dedup (raw : List Char) (hraw : raw ≠ [])
    (hall : ∀ l ∈ parseStringArrayEnv raw, ensureOk l = true) :
    parseRepoRelativePathsEnv raw =
      .ok (dedupKeepFirst ((parseStringArrayEnv raw).map normalizePath)) := by
  unfold parseRepoRelativePathsEnv dedupKeepFirst
  rw [if_neg hraw, List.foldl_map]
  exact parse_lines_ok _ [] hall

/-- Witness for C3: the five-line input of the spec parses to exactly the
three expected paths, duplicates collapsed to first occurrence. -/
theorem c3_witness :
    parseRepoRelativePathsEnv "./x\nx/\n./y\na//b/../c\nx".data =
      .ok ["x".data, "y".data, "a/c".data] := by
  rw [c3_dedup "./x\nx/\n./y\na//b/../c\nx".data (by decide) (by decide)]
  rfl

theorem hasSubstr_append (n s t : List Char) (h : hasSubstr n t = true) :
    hasSubstr n (s ++ t) = true := by
  induction s with
  | nil => simpa using h
  | cons a s ih =>
    show hasSubstr n (a :: (s ++ t)) = true
    unfold hasSubstr
    rw [ih]
    simp

/-- C6: an empty (or absent) raw value makes the list parse fail with the
RequiredMissing kind before any line is processed, and the message, which
references the key, contains the substring mandated by the contract. -/
theorem c6_required_missing (key : List Char) :
    parseRepoRelativePathsEnvMsg key [] =
      .error (.RequiredMissing, keyedMessage key .RequiredMissing) ∧
    hasSubstr "required".data (keyedMessage key .RequiredMissing) = true := by
  refine ⟨rfl, ?_⟩
  show hasSubstr "required".data
    (key ++ (':' :: ' ' :: kindMessage .RequiredMissing)) = true
  exact hasSubstr_append _ key _ (by decide)

/-! ## The sibling line splitters -/

theorem replaceCR_id {l : List Char} (h : '\r' ∉ l) : replaceCR l = l := by
  induction l with
  | nil => rfl
  | cons a t ih =>
    have ha : a ≠ '\r' := fun heq => h (heq ▸ List.mem_cons_self a t)
    have ht : '\r' ∉ t := fun hm => h (List.mem_cons_of_mem a hm)
    simp [replaceCR] at ih ⊢
    exact ⟨fun heq => absurd heq ha, ih ht⟩

theorem splitOnChar_ne_nil (c : Char) (l : List Char) : splitOnChar c l ≠ [] := by
  cases l with
  | nil => simp [splitOnChar]
  | cons a as =>
    unfold splitOnChar
    split
    · simp
    · split <;> simp

theorem mem_splitOnChar {c : Char} : ∀ {l s : List Char}, s ∈ splitOnChar c l →
    c ∉ s ∧ ∀ a ∈ s, a ∈ l := by
  intro l
  induction l with
  | nil =>
    intro s hs
    simp [splitOnChar] at hs
    subst hs
    exact ⟨by simp, by simp⟩
  | cons a as ih =>
    intro s hs
    unfold splitOnChar at hs
    by_cases hac : a = c
    · rw [if_pos hac] at hs
      rcases List.mem_cons.mp hs with rfl | hs
      · exact ⟨by simp, by simp⟩
      · have h := ih hs
        exact ⟨h.1, fun x hx => List.mem_cons_of_mem a (h.2 x hx)⟩
    · rw [if_neg hac] at hs
      cases hsp : splitOnChar c as with
      | nil => exact absurd hsp (splitOnChar_ne_nil c as)
      | cons s0 ss =>
        rw [hsp] at hs
        rcases List.mem_cons.mp hs with rfl | hs
        · have h0 := ih (hsp ▸ List.mem_cons_self s0 ss)
          constructor
          · intro hmem
            rcases List.mem_cons.mp hmem with heq | hmem
            · exact hac heq.symm
            · exact h0.1 hmem
          · intro x hx
            rcases List.mem_cons.mp hx with heq | hx
            · rw [heq]; exact List.mem_cons_self _ _
            · exact List.mem_cons_of_mem _ (h0.2 x hx)
        · have h := ih (hsp ▸ List.mem_cons_of_mem s0 hs)
          exact ⟨h.1, fun x hx => List.mem_cons_of_mem a (h.2 x hx)⟩

theorem splitOnChar_not_mem {c : Char} : ∀ {l : List Char}, c ∉ l →
    splitOnChar c l = [l] := by
  intro l
  induction l with
  | nil => intro _; rfl
  | cons a as ih =>
    intro h
    rw [List.mem_cons, not_or] at h
    unfold splitOnChar
    rw [if_neg (fun heq => h.1 heq.symm), ih h.2]

theorem splitOnChar_append_cons {c : Char} : ∀ {s : List Char}, c ∉ s →
    ∀ t : List Char, splitOnChar c (s ++ c :: t) = s :: splitOnChar c t := by
  intro s
  induction s with
  | nil =>
    intro _ t
    show splitOnChar c (c :: t) = [] :: splitOnChar c t
    rw [show splitOnChar c (c :: t) =
      if c = c then [] :: splitOnChar c t
      else match splitOnChar c t with
        | [] => [[c]]
        | s :: ss => (c :: s) :: ss from rfl,
      if_pos rfl]
  | cons a s ih =>
    intro h t
    rw [List.mem_cons, not_or] at h
    show splitOnChar c (a :: (s ++ c :: t)) = (a :: s) :: splitOnChar c t
    rw [show splitOnChar c (a :: (s ++ c :: t)) =
      if a = c then [] :: splitOnChar c (s ++ c :: t)
      else match splitOnChar c (s ++ c :: t) with
        | [] => [[a]]
        | s0 :: ss => (a :: s0) :: ss from rfl,
      if_neg (fun heq => h.1 heq.symm), ih h.2 t]

theorem splitOnChar_joinWith {c : Char} : ∀ {st : List (List Char)}, st ≠ [] →
    (∀ s ∈ st, c ∉ s) → splitOnChar c (joinWith c st) = st := by
  intro st
  induction st with
  | nil => intro h; exact absurd rfl h
  | cons s ss ih =>
    intro _ hall
    cases ss with
    | nil => exact splitOnChar_not_mem (hall s (by simp))
    | cons s1 ss1 =>
      rw [show joinWith c (s :: s1 :: ss1) = s ++ c :: joinWith c (s1 :: ss1) from rfl]
      rw [splitOnChar_append_cons (hall s (by simp))]
      rw [ih (by simp) (fun x hx => hall x (List.mem_cons_of_mem s hx))]

theorem mem_joinWith {c : Char} : ∀ {st : List (List Char)} {a : Char},
    a ∈ joinWith c st → a = c ∨ ∃ s ∈ st, a ∈ s := by
  intro st
  induction st with
  | nil => intro a ha; cases ha
  | cons s ss ih =>
    intro a ha
    cases ss with
    | nil => exact Or.inr ⟨s, by simp, ha⟩
    | cons s1 ss1 =>
      rw [show joinWith c (s :: s1 :: ss1) = s ++ c :: joinWith c (s1 :: ss1) from rfl] at ha
      rcases List.mem_append.mp ha with hs | hrest
      · exact Or.inr ⟨s, by simp, hs⟩
      · rcases List.mem_cons.mp hrest with rfl | hj
        · exact Or.inl rfl
        · rcases ih hj with h | ⟨x, hx, hax⟩
          · exact Or.inl h
          · exact Or.inr ⟨x, List.mem_cons_of_mem s hx, hax⟩

theorem slashify_no_backslash {l : List Char} : ∀ a ∈ slashify l, a ≠ '\\' := by
  intro a ha
  unfold slashify at ha
  rcases List.mem_map.mp ha with ⟨b, hb, heq⟩
  by_cases hbb : b = '\\'
  · rw [if_pos hbb] at heq
    rw [← heq]
    decide
  · rw [if_neg hbb] at heq
    rw [← heq]
    exact hbb

theorem slashify_eq_self : ∀ {l : List Char}, (∀ a ∈ l, a ≠ '\\') →
    slashify l = l := by
  intro l
  induction l with
  | nil => intro _; rfl
  | cons a t ih =>
    intro h
    show (if a = '\\' then '/' else a) :: slashify t = a :: t
    rw [if_neg (h a (by simp)), ih (fun x hx => h x (List.mem_cons_of_mem a hx))]

theorem replaceCRLF_id : ∀ {l : List Char}, '\r' ∉ l → replaceCRLF l = l := by
  intro l
  induction l using replaceCRLF.induct with
  | case1 => intro _; rfl
  | case2 c => intro _; rfl
  | case3 a b t hcond ih =>
    intro h
    apply absurd _ h
    rw [← hcond.1]
    exact List.mem_cons_self _ _
  | case4 a b t hncond ih =>
    intro h
    have hre : replaceCRLF (a :: b :: t) = a :: replaceCRLF (b :: t) := by
      show (if a = '\r' ∧ b = '\n' then '\n' :: replaceCRLF t
        else a :: replaceCRLF (b :: t)) = a :: replaceCRLF (b :: t)
      exact if_neg hncond
    rw [hre, ih (fun hm => h (List.mem_cons_of_mem a hm))]

theorem trimSpace_id {l : List Char} (h : ∀ a ∈ l, isGoSpace a = false) :
    trimSpace l = l := by
  have hd : ∀ (m : List Char), (∀ a ∈ m, isGoSpace a = false) →
      m.dropWhile isGoSpace = m := by
    intro m hm
    cases m with
    | nil => rfl
    | cons a t =>
      rw [List.dropWhile_cons_of_neg]
      simp [hm a (by simp)]
  unfold trimSpace
  rw [hd _ h, hd _ (fun a ha => h a (List.mem_reverse.mp ha)),
    List.reverse_reverse]

theorem splitters_diverge_on_long_line (l : List Char)
    (hne : l ≠ []) (hnr : '\r' ∉ l) (hnn : '\n' ∉ l)
    (hns : ∀ a ∈ l, isGoSpace a = false)
    (hlong : ¬ l.length < maxScanTokenSize) :
    parsePaths l = [l] ∧ parseStringArrayEnv l = [] := by
  have hsplit := splitOnChar_not_mem hnn
  constructor
  · simp only [parsePaths, if_neg hne]
    rw [replaceCRLF_id hnr, hsplit, List.map_cons, List.map_nil,
      trimSpace_id hns]
    rw [show ([l] : List (List Char)).filter (· ≠ []) = [l] from by
      simp [hne]]
    rw [if_neg (by simp)]
  · simp only [parseStringArrayEnv, if_neg hne]
    rw [replaceCRLF_id hnr, replaceCR_id hnr, hsplit]
    rw [show scanTokens [l] = [] from by
      unfold scanTokens
      rw [if_neg hlong]]
    rfl

/-- A line of exactly the scanner limit, carriage-return free, is kept in
full by ParsePaths but makes ParseStringArrayEnv silently drop everything,
which is why both hypotheses of the amended equivalence are needed. -/
theorem scanner_limit_divergence :
    parsePaths (List.replicate maxScanTokenSize 'a') =
      [List.replicate maxScanTokenSize 'a'] ∧
    parseStringArrayEnv (List.replicate maxScanTokenSize 'a') = [] := by
  apply splitters_diverge_on_long_line
  · intro h
    have hlen := congrArg List.length h
    rw [List.length_replicate] at hlen
    exact absurd hlen (by decide)
  · exact fun hm => absurd (List.eq_of_mem_replicate hm) (by decide)
  · exact fun hm => absurd (List.eq_of_mem_replicate hm) (by decide)
  · intro a ha
    rw [List.eq_of_mem_replicate ha]
    decide
  · rw [List.length_replicate]
    decide

/-! ## Resolution stack lemmas -/

theorem resolveStep_nil (b : Bool) (acc : List (List Char)) :
    resolveStep b acc [] = acc := by
  unfold resolveStep
  rw [if_pos (Or.inl rfl)]

theorem resolveStep_dot (b : Bool) (acc : List (List Char)) :
    resolveStep b acc ['.'] = acc := by
  unfold resolveStep
  rw [if_pos (Or.inr rfl)]

theorem resolveStep_plain {s : List Char} (b : Bool) (acc : List (List Char))
    (h1 : s ≠ []) (h2 : s ≠ ['.']) (h3 : s ≠ dd) :
    resolveStep b acc s = s :: acc := by
  unfold resolveStep
  rw [if_neg (by rintro (h | h); exacts [h1 h, h2 h]), if_neg h3]

theorem resolveStep_dd_nilacc (b : Bool) :
    resolveStep b [] dd = if b then [] else [dd] := by
  unfold resolveStep
  rw [if_neg (by rintro (h | h) <;> simp [dd] at h), if_pos rfl]

theorem resolveStep_dd_cons (b : Bool) (t : List Char) (ts : List (List Char)) :
    resolveStep b (t :: ts) dd =
      if b = false ∧ t = dd then dd :: t :: ts else ts := by
  unfold resolveStep
  rw [if_neg (by rintro (h | h) <;> simp [dd] at h), if_pos rfl]

theorem resolveRev_cons (b : Bool) (s : List Char) (segs acc : List (List Char)) :
    resolveRev b (s :: segs) acc = resolveRev b segs (resolveStep b acc s) := rfl

theorem resolveRev_plain (b : Bool) : ∀ (rest acc : List (List Char)),
    (∀ s ∈ rest, s ≠ [] ∧ s ≠ ['.'] ∧ s ≠ dd) →
    resolveRev b rest acc = rest.reverse ++ acc := by
  intro rest
  induction rest with
  | nil => intro acc _; rfl
  | cons s rest ih =>
    intro acc hall
    have hs := hall s (by simp)
    rw [resolveRev_cons, resolveStep_plain b acc hs.1 hs.2.1 hs.2.2,
      ih (s :: acc) (fun x hx => hall x (List.mem_cons_of_mem s hx))]
    simp

theorem resolveRev_dots : ∀ (k : Nat) (acc : List (List Char)),
    (∀ t ∈ acc, t = dd) →
    resolveRev false (List.replicate k dd) acc = List.replicate k dd ++ acc := by
  intro k
  induction k with
  | zero => intro acc _; rfl
  | succ k ih =>
    intro acc hacc
    rw [List.replicate_succ, resolveRev_cons]
    have hstep : resolveStep false acc dd = dd :: acc := by
      cases acc with
      | nil => rw [resolveStep_dd_nilacc]; rfl
      | cons t ts =>
        rw [resolveStep_dd_cons, if_pos ⟨rfl, hacc t (by simp)⟩]
    rw [hstep, ih (dd :: acc) (fun x hx => by
      rcases List.mem_cons.mp hx with heq | hx
      · exact heq
      · exact hacc x hx)]
    calc List.replicate k dd ++ dd :: acc
        = (List.replicate k dd ++ [dd]) ++ acc := by simp
      _ = List.replicate (k + 1) dd ++ acc := by rw [← List.replicate_succ']

theorem stackInv_step {b : Bool} {acc : List (List Char)} {s : List Char}
    (hs1 : '/' ∉ s) (hs2 : '\\' ∉ s) (hinv : StackInv b acc) :
    StackInv b (resolveStep b acc s) := by
  obtain ⟨front, k, rfl, hfront, hk⟩ := hinv
  by_cases h1 : s = []
  · rw [h1, resolveStep_nil]; exact ⟨front, k, rfl, hfront, hk⟩
  by_cases h2 : s = ['.']
  · rw [h2, resolveStep_dot]; exact ⟨front, k, rfl, hfront, hk⟩
  by_cases h3 : s = dd
  · subst h3
    cases front with
    | nil =>
      cases k with
      | zero =>
        rw [show ([] : List (List Char)) ++ List.replicate 0 dd = [] from rfl,
          resolveStep_dd_nilacc]
        cases b with
        | true => rw [if_pos rfl]; exact ⟨[], 0, rfl, by simp, fun _ => rfl⟩
        | false =>
          rw [if_neg (by simp)]
          exact ⟨[], 1, by simp, by simp, by simp⟩
      | succ k =>
        have hb : b = false := by
          cases b with
          | true => exact absurd (hk rfl) (Nat.succ_ne_zero k)
          | false => rfl
        subst hb
        rw [List.nil_append, List.replicate_succ, resolveStep_dd_cons,
          if_pos ⟨rfl, rfl⟩]
        exact ⟨[], k + 2, by simp [List.replicate_succ], by simp, by simp⟩
    | cons f fs =>
      have hf := hfront f (by simp)
      rw [List.cons_append, resolveStep_dd_cons,
        if_neg (fun hand => hf.2 hand.2)]
      exact ⟨fs, k, rfl, fun x hx => hfront x (List.mem_cons_of_mem f hx), hk⟩
  · rw [resolveStep_plain b _ h1 h2 h3]
    refine ⟨s :: front, k, by simp, ?_, hk⟩
    intro x hx
    rcases List.mem_cons.mp hx with heq | hx
    · rw [heq]; exact ⟨⟨h1, h2, hs1, hs2⟩, h3⟩
    · exact hfront x hx

theorem stackInv_fold {b : Bool} : ∀ (segs acc : List (List Char)),
    (∀ s ∈ segs, '/' ∉ s ∧ '\\' ∉ s) → StackInv b acc →
    StackInv b (resolveRev b segs acc) := by
  intro segs
  induction segs with
  | nil => intro acc _ hinv; exact hinv
  | cons s segs ih =>
    intro acc hall hinv
    rw [resolveRev_cons]
    exact ih _ (fun x hx => hall x (List.mem_cons_of_mem s hx))
      (stackInv_step (hall s (by simp)).1 (hall s (by simp)).2 hinv)

theorem stackInv_plain {b : Bool} {acc : List (List Char)}
    (hinv : StackInv b acc) : ∀ s ∈ acc, plainSeg s := by
  obtain ⟨front, k, rfl, hfront, -⟩ := hinv
  intro s hs
  rcases List.mem_append.mp hs with h | h
  · exact (hfront s h).1
  · rw [List.eq_of_mem_replicate h]
    exact ⟨by decide, by decide, by decide, by decide⟩

theorem resolveRev_resolved {b : Bool} {acc : List (List Char)}
    (hinv : StackInv b acc) : resolveRev b acc.reverse [] = acc := by
  obtain ⟨front, k, rfl, hfront, hk⟩ := hinv
  have hplainrev : ∀ s ∈ front.reverse, s ≠ [] ∧ s ≠ ['.'] ∧ s ≠ dd := by
    intro s hs
    have h := hfront s (List.mem_reverse.mp hs)
    exact ⟨h.1.1, h.1.2.1, h.2⟩
  cases b with
  | true =>
    rw [hk rfl]
    rw [show front ++ List.replicate 0 dd = front from by simp]
    rw [resolveRev_plain true front.reverse [] hplainrev]
    simp
  | false =>
    rw [List.reverse_append, List.reverse_replicate]
    unfold resolveRev
    rw [List.foldl_append]
    have hdots := resolveRev_dots k [] (by simp)
    unfold resolveRev at hdots
    rw [List.append_nil] at hdots
    rw [hdots]
    have hplain := resolveRev_plain false front.reverse (List.replicate k dd)
      hplainrev
    unfold resolveRev at hplain
    rw [hplain]
    simp

/-! ## Idempotence of the normalizer -/

theorem normalize_stackInv (p : List Char) :
    StackInv (isRooted (slashify p))
      (resolveRev (isRooted (slashify p)) (splitOnChar '/' (slashify p)) []) := by
  apply stackInv_fold
  · intro s hs
    have hm := mem_splitOnChar hs
    refine ⟨hm.1, fun hbs => ?_⟩
    exact slashify_no_backslash '\\' (hm.2 '\\' hbs) rfl
  · exact ⟨[], 0, by simp, by simp, fun _ => rfl⟩

theorem normalizePath_render {b : Bool} {acc : List (List Char)}
    (hinv : StackInv b acc) :
    normalizePath (renderPath b acc.reverse) = renderPath b acc.reverse := by
  have hplain : ∀ s ∈ acc.reverse, plainSeg s :=
    fun s hs => stackInv_plain hinv s (List.mem_reverse.mp hs)
  have hnosl : ∀ s ∈ acc.reverse, '/' ∉ s := fun s hs => (hplain s hs).2.2.1
  cases b with
  | true =>
    by_cases hst : acc.reverse = []
    · rw [hst]; decide
    · have hne : ∀ s ∈ acc.reverse, s ≠ [] ∧ s ≠ ['.'] ∧ s ≠ dd := by
        obtain ⟨front, k, haccEq, hfront, hk⟩ := hinv
        rw [hk rfl] at haccEq
        rw [show List.replicate 0 dd = [] from rfl, List.append_nil] at haccEq
        intro s hs
        have hsf : s ∈ front := by
          rw [← haccEq]
          exact List.mem_reverse.mp hs
        exact ⟨(hfront s hsf).1.1, (hfront s hsf).1.2.1, (hfront s hsf).2⟩
      have hnb : ∀ a ∈ '/' :: joinWith '/' acc.reverse, a ≠ '\\' := by
        intro a ha
        rcases List.mem_cons.mp ha with heq | ha
        · rw [heq]; decide
        · rcases mem_joinWith ha with heq | ⟨s, hs, has⟩
          · rw [heq]; decide
          · exact fun hEq => (hplain s hs).2.2.2 (hEq ▸ has)
      rw [show renderPath true acc.reverse = '/' :: joinWith '/' acc.reverse from by
        unfold renderPath; rw [if_pos rfl]]
      unfold normalizePath
      rw [slashify_eq_self hnb]
      rw [show isRooted ('/' :: joinWith '/' acc.reverse) = true from rfl]
      rw [show splitOnChar '/' ('/' :: joinWith '/' acc.reverse) =
        [] :: splitOnChar '/' (joinWith '/' acc.reverse) from by
        rw [show splitOnChar '/' ('/' :: joinWith '/' acc.reverse) =
          if ('/' : Char) = '/' then [] :: splitOnChar '/' (joinWith '/' acc.reverse)
          else match splitOnChar '/' (joinWith '/' acc.reverse) with
            | [] => [['/']]
            | s :: ss => ('/' :: s) :: ss from rfl, if_pos rfl]]
      rw [splitOnChar_joinWith hst hnosl]
      rw [resolveRev_cons, resolveStep_nil]
      rw [resolveRev_plain true acc.reverse [] hne]
      rw [List.append_nil, List.reverse_reverse]
      unfold renderPath
      rw [if_pos rfl]
  | false =>
    by_cases hst : acc.reverse = []
    · rw [hst]; decide
    · have hne0 : ∀ s ∈ acc.reverse, s ≠ [] := fun s hs => (hplain s hs).1
      obtain ⟨s0, st', hstEq⟩ : ∃ s0 st', acc.reverse = s0 :: st' := by
        cases h : acc.reverse with
        | nil => exact absurd h hst
        | cons s0 st' => exact ⟨s0, st', rfl⟩
      have hs0mem : s0 ∈ acc.reverse := by
        rw [hstEq]; exact List.mem_cons_self _ _
      obtain ⟨a0, s0', hs0Eq⟩ : ∃ a0 s0', s0 = a0 :: s0' := by
        cases h : s0 with
        | nil => exact absurd h (hne0 s0 hs0mem)
        | cons a0 s0' => exact ⟨a0, s0', rfl⟩
      have ha0 : a0 ≠ '/' := by
        have ha0m : a0 ∈ s0 := by rw [hs0Eq]; exact List.mem_cons_self _ _
        exact fun heq => hnosl s0 hs0mem (heq ▸ ha0m)
      obtain ⟨tl, htl⟩ : ∃ tl, joinWith '/' acc.reverse = a0 :: tl := by
        rw [hstEq, hs0Eq]
        cases st' with
        | nil => exact ⟨s0', rfl⟩
        | cons s1 ss1 => exact ⟨s0' ++ '/' :: joinWith '/' (s1 :: ss1), rfl⟩
      have hroot : isRooted (joinWith '/' acc.reverse) = false := by
        rw [htl]
        show decide (a0 = '/') = false
        simp [ha0]
      have hnb : ∀ a ∈ joinWith '/' acc.reverse, a ≠ '\\' := by
        intro a ha
        rcases mem_joinWith ha with heq | ⟨s, hs, has⟩
        · rw [heq]; decide
        · exact fun hEq => (hplain s hs).2.2.2 (hEq ▸ has)
      rw [show renderPath false acc.reverse = joinWith '/' acc.reverse from by
        unfold renderPath; rw [if_neg (by simp), if_neg hst]]
      unfold normalizePath
      rw [slashify_eq_self hnb, hroot]
      rw [splitOnChar_joinWith hst hnosl]
      rw [resolveRev_resolved hinv]
      unfold renderPath
      rw [if_neg (by simp), if_neg hst]

/-- C5: normalization is idempotent: normalizing any string twice gives
the same result as normalizing it once, so an already-normalized path is
returned unchanged. -/
theorem c5_normalize_idempotent (p : List Char) :
    normalizePath (normalizePath p) = normalizePath p :=
  normalizePath_render (normalize_stackInv p)

/-! ## Tail ring lemmas -/

theorem length_tailBytes (n : Nat) (l : List UInt8) :
    (tailBytes n l).length = min n l.length := by
  simp [tailBytes]
  omega

theorem tailBytes_min (n : Nat) (l : List UInt8) :
    tailBytes n l = tailBytes (min n l.length) l := by
  unfold tailBytes
  congr 1
  omega

theorem write_step (J p : List UInt8) (limit : Int) :
    (TailRing.write ⟨tailBytes limit.toNat J, limit⟩ p).1 =
      ⟨tailBytes limit.toNat (J ++ p), limit⟩ := by
  have hlen : (J.drop (J.length - limit.toNat)).length =
      J.length - (J.length - limit.toNat) := List.length_drop _ _
  unfold TailRing.write tailBytes
  dsimp only
  split
  · next h0 =>
    have hL0 : limit.toNat = 0 := Int.toNat_of_nonpos h0
    simp [hL0, List.drop_length]
  · next h0 =>
    have h0' : 0 < limit := not_le.mp h0
    have hLi : ((limit.toNat : Int)) = limit := Int.toNat_of_nonneg (le_of_lt h0')
    split
    · next h1 =>
      have hpL : limit.toNat ≤ p.length := by omega
      rw [List.length_append,
        show J.length + p.length - limit.toNat =
          J.length + (p.length - limit.toNat) from by omega,
        List.drop_append]
    · next h1 =>
      have hpL : p.length < limit.toNat := by omega
      split
      · next h2 =>
        dsimp only
        rw [List.drop_drop, List.length_append]
        have hle : J.length + p.length - limit.toNat ≤ J.length := by omega
        rw [List.drop_append_of_le_length hle]
        congr 3
        omega
      · next h2 =>
        dsimp only
        have hle : J.length + p.length - limit.toNat ≤ J.length := by omega
        rw [List.length_append, List.drop_append_of_le_length hle]
        congr 3
        omega

theorem writeAll_tail (limit : Int) :
    ∀ (ws : List (List UInt8)) (J : List UInt8),
      List.foldl (fun r p => (TailRing.write r p).1)
          ⟨tailBytes limit.toNat J, limit⟩ ws =
        ⟨tailBytes limit.toNat (J ++ ws.flatten), limit⟩ := by
  intro ws
  induction ws with
  | nil => intro J; simp
  | cons p ws ih =>
    intro J
    rw [List.foldl_cons, write_step, ih (J ++ p), List.flatten_cons,
      List.append_assoc]

theorem writeAll_eq (limit : Int) (ws : List (List UInt8)) :
    TailRing.writeAll limit ws = ⟨tailBytes limit.toNat ws.flatten, limit⟩ := by
  unfold TailRing.writeAll
  rw [show TailRing.new limit = (⟨tailBytes limit.toNat [], limit⟩ : TailRing) from by
    unfold TailRing.new; congr 1; simp [tailBytes]]
  rw [writeAll_tail limit ws []]
  rfl

/-- C9: starting from New (limit), after any finite sequence of writes the
stored length never exceeds max (limit) 0 (a non-positive limit keeps
nothing), the buffer holds exactly the last min (limit, total written)
bytes of the concatenation of all writes in order, and every write call
returns the pair (length of the chunk, nil error). -/
theorem c9_ring_invariants (limit : Int) (ws : List (List UInt8)) :
    (TailRing.writeAll limit ws).buf =
      tailBytes (min limit.toNat ws.flatten.length) ws.flatten ∧
    (((TailRing.writeAll limit ws).lenBytes : Int) ≤ max limit 0) ∧
    ∀ (r : TailRing) (p : List UInt8),
      (TailRing.write r p).2 = (p.length, (none : Option String)) := by
  refine ⟨?_, ?_, ?_⟩
  · rw [writeAll_eq]
    exact tailBytes_min _ _
  · rw [writeAll_eq]
    unfold TailRing.lenBytes
    have hl := length_tailBytes limit.toNat ws.flatten
    have hm := Int.ofNat_toNat limit
    simp only [hl]
    omega
  · intro r p
    unfold TailRing.write
    split
    · rfl
    · split
      · rfl
      · dsimp only
        split
        · rfl
        · rfl

/-! ## Heap aliasing of Ring.Bytes -/

/-- C10: Bytes hands back a freshly allocated copy of the tail, so
overwriting the returned array with any contents leaves the ring's own
array unchanged, and reading the ring afterwards yields the same contents
as before the mutation. -/
theorem c10_bytes_copy (h : Heap) (ringId : Nat)
    (hlt : ringId < h.arrays.length) (v : List UInt8) :
    (ringBytes h ringId).2 ≠ ringId ∧
    Heap.read (ringBytes h ringId).1 ringId = Heap.read h ringId ∧
    Heap.read (Heap.writeAt (ringBytes h ringId).1 (ringBytes h ringId).2 v)
        ringId = Heap.read h ringId := by
  refine ⟨?_, ?_, ?_⟩
  · exact Ne.symm (Nat.ne_of_lt hlt)
  · exact List.getD_append _ _ _ _ hlt
  · show ((h.arrays ++ [h.read ringId]).set h.arrays.length v).getD ringId [] =
      h.arrays.getD ringId []
    rw [List.getD_eq_getElem?_getD,
      List.getElem?_set_ne (Ne.symm (Nat.ne_of_lt hlt)),
      List.getElem?_append, if_pos hlt, ← List.getD_eq_getElem?_getD]

/-- Witness for C10: on a one-array heap holding abcd, mutating the copy
returned by Bytes leaves the ring contents abcd. -/
theorem c10_witness :
    Heap.read
      (Heap.writeAt (ringBytes ⟨[[97, 98, 99, 100]]⟩ 0).1
        (ringBytes ⟨[[97, 98, 99, 100]]⟩ 0).2 [90, 98, 99, 100]) 0 =
      [97, 98, 99, 100] :=
  ((c10_bytes_copy ⟨[[97, 98, 99, 100]]⟩ 0 (by decide) [90, 98, 99, 100]).2.2).trans
    (by decide)

end LA
